import Mathlib

/-!
Verification of the mcp-document-search indexing-and-retrieval pipeline.

Shallow embedding of the Go sources:
* `chunker`    — src/internal/chunker/chunker.go
* `storage`    — src/internal/storage/database.go (SQLite schema + operations)
* `embeddings` — the embeddings client (OpenAI gateway; batch reassembly)
* `search`     — src/internal/search/search.go (orchestrator service)

Go `int` values that the constructors coerce to non-negative ranges are
modelled as `Nat`; Go's clamping `if x < 0 { x = 0 }` coincides with
truncated `Nat` subtraction at every place it occurs.  Loops whose
termination is in question are given an explicit fuel parameter; a
result of `none` for every fuel value corresponds to a non-terminating
Go loop.
-/

set_option maxRecDepth 100000

namespace DocSearch

/-! ## Chunker (src/internal/chunker/chunker.go) -/

namespace chunker

/-- Go `unicode.IsSpace`: the Unicode White_Space property, encoded
exactly ('\t','\n','\v','\f','\r',' ',U+0085,U+00A0 in Latin-1, plus the
table entries U+1680, U+2000–U+200A, U+2028, U+2029, U+202F, U+205F,
U+3000). -/
def goIsSpace (c : Char) : Bool :=
  let n := c.toNat
  (9 ≤ n && n ≤ 13) || n == 32 || n == 0x85 || n == 0xA0 ||
  n == 0x1680 || (0x2000 ≤ n && n ≤ 0x200A) || n == 0x2028 || n == 0x2029 ||
  n == 0x202F || n == 0x205F || n == 0x3000

/-- `Chunker` struct: configuration after the constructor's coercions
(both fields are non-negative, so `Nat`). -/
structure Chunker where
  chunkSize : Nat
  overlap : Nat
deriving DecidableEq

/-- `NewChunker`: `chunkSize <= 0` coerced to 1000, negative `overlap`
coerced to 0, `overlap >= chunkSize` coerced to `chunkSize / 2`. -/
def NewChunker (chunkSize overlap : Int) : Chunker :=
  let cs : Int := if chunkSize ≤ 0 then 1000 else chunkSize
  let ov : Int := if overlap < 0 then 0 else overlap
  let ov : Int := if ov ≥ cs then cs / 2 else ov
  ⟨cs.toNat, ov.toNat⟩

/-- `chunker.Chunk`: a produced chunk with its metadata. -/
structure Chunk where
  Content : String
  Index : Nat
  StartOffset : Nat
  EndOffset : Nat
deriving DecidableEq

/-- The backward scan of `findWordBoundary`:
`for i := endPos - 1; i >= scanStart; i--` looking for the first (i.e.
highest-index) whitespace rune.  The counter argument `n` is the number
of indices still to inspect, so the call with `n = endPos - scanStart`
inspects `endPos-1, …, scanStart` in that order. -/
def scanBackWs (runes : List Char) (scanStart : Nat) : Nat → Option Nat
  | 0 => none
  | n+1 =>
    if goIsSpace (runes.getD (scanStart + n) 'x') then some (scanStart + n)
    else scanBackWs runes scanStart n

/-- The forward scan of `findWordBoundary`:
`for splitPos < endPos && unicode.IsSpace(runes[splitPos]) { splitPos++ }`.
The fuel is at least `endPos - splitPos`, enough for the loop to
reach its guard's failure. -/
def skipWs (runes : List Char) (endPos : Nat) : Nat → Nat → Nat
  | 0, splitPos => splitPos
  | fuel+1, splitPos =>
    if splitPos < endPos && goIsSpace (runes.getD splitPos 'x') then
      skipWs runes endPos fuel (splitPos+1)
    else splitPos

/-- `findWordBoundary`: scan backward from `endPos` for the last
whitespace within `min 100 chunkSize` runes (not before `startPos`);
if found, cut just past the whitespace run; otherwise force the cut at
`endPos`. -/
def findWordBoundary (c : Chunker) (runes : List Char) (startPos endPos : Nat) : Nat :=
  let maxScanBack := min 100 c.chunkSize
  let scanStart := max (endPos - maxScanBack) startPos
  match scanBackWs runes scanStart (endPos - scanStart) with
  | some lastWhitespace => skipWs runes endPos (endPos - (lastWhitespace + 1)) (lastWhitespace + 1)
  | none => endPos

/-- One iteration of the `ChunkText` loop body from `position`: computes
`endPos`, `actualEnd`, the emitted chunk, and either `none` (the
`actualEnd >= totalLen` break) or the next `position = actualEnd - overlap`
(clamped at 0 by `Nat` subtraction, exactly as the Go clamp). -/
def chunkStep (c : Chunker) (runes : List Char) (totalLen position chunkIndex : Nat) :
    Chunk × Option Nat :=
  let endPos := min (position + c.chunkSize) totalLen
  let actualEnd := if endPos < totalLen then findWordBoundary c runes position endPos else endPos
  let content := String.mk ((runes.drop position).take (actualEnd - position))
  let chunk : Chunk := ⟨content, chunkIndex, position, actualEnd⟩
  if totalLen ≤ actualEnd then (chunk, none)
  else (chunk, some (actualEnd - c.overlap))

/-- The `for position < totalLen` loop of `ChunkText`, with fuel.
`none` means the fuel ran out before the loop finished. -/
def chunkLoop (c : Chunker) (runes : List Char) (totalLen : Nat) :
    Nat → Nat → Nat → List Chunk → Option (List Chunk)
  | 0, _, _, _ => none
  | fuel+1, position, chunkIndex, acc =>
    if position < totalLen then
      match chunkStep c runes totalLen position chunkIndex with
      | (chunk, none) => some (acc ++ [chunk])
      | (chunk, some nextPos) => chunkLoop c runes totalLen fuel nextPos (chunkIndex+1) (acc ++ [chunk])
    else some acc

/-- `ChunkText`: empty text gives no chunks; text of code-point length
at most `chunkSize` gives a single chunk; otherwise the chunking loop
runs (with fuel). -/
def ChunkText (c : Chunker) (fuel : Nat) (text : String) : Option (List Chunk) :=
  if text = "" then some []
  else
    let runes := text.data
    let totalLen := runes.length
    if totalLen ≤ c.chunkSize then some [⟨text, 0, 0, totalLen⟩]
    else chunkLoop c runes totalLen fuel 0 0 []

end chunker

/-! ## Shared vector values

A float32 value is modelled by its 32-bit pattern (the pipeline never
computes with the floats; similarity is the store's internal concern and
is kept abstract). -/

/-- A float32 value, as the 32-bit pattern stored in the blob. -/
structure F32 where
  bits : Nat
deriving DecidableEq

/-- An embedding vector. -/
abbrev Emb := List F32

/-! ## Document store (src/internal/storage/database.go) -/

namespace storage

def embeddingDimension : Nat := 1536

/-- Go `len` on a string: the UTF-8 byte length (not the code-point count). -/
def goLen (s : String) : Nat := s.utf8ByteSize

/-- A row of the `documents` table. -/
structure DocRow where
  id : Nat
  source : String
  sourceType : String
  contentSize : Nat
  chunkCount : Nat
  title : String
deriving DecidableEq

/-- A row of the `chunks` table. -/
structure ChunkRow where
  id : Nat
  documentId : Nat
  chunkIndex : Nat
  content : String
  startOffset : Nat
  endOffset : Nat
  embedding : Emb
deriving DecidableEq

/-- `storage.Chunk` as consumed by `IndexDocument` (its `ID` and
`DocumentID` fields are ignored by the insert, which assigns fresh ids,
so they are omitted here). -/
structure Chunk where
  ChunkIndex : Nat
  Content : String
  StartOffset : Nat
  EndOffset : Nat
  Embedding : Emb
deriving DecidableEq

/-- The persistent SQLite state: the two tables plus the AUTOINCREMENT
counters. -/
structure DBState where
  documents : List DocRow
  chunks : List ChunkRow
  nextDocId : Nat
  nextChunkId : Nat
deriving DecidableEq

/-- Whether the connection enforces foreign keys, and hence the schema's
`ON DELETE CASCADE`.  `NewDatabase` opens the connection with
`sql.Open("sqlite3", dbPath)` — no `_foreign_keys` DSN parameter and no
`PRAGMA foreign_keys` statement appears anywhere in the repository — so
SQLite's per-connection default (enforcement OFF) applies. -/
def connForeignKeysEnabled : Bool := false

/-- `DELETE FROM documents WHERE source = ?`: removes the matching
document rows; the chunk rows of the removed documents are removed as
well only when the connection enforces the declared cascade. -/
def execDeleteDocuments (fkEnabled : Bool) (st : DBState) (source : String) : DBState :=
  let removedIds := (st.documents.filter (fun d => d.source == source)).map (fun d => d.id)
  { st with
    documents := st.documents.filter (fun d => !(d.source == source)),
    chunks :=
      if fkEnabled then st.chunks.filter (fun ch => !(removedIds.contains ch.documentId))
      else st.chunks }

/-- The chunk-insert loop of `IndexDocument`, run against the
transaction-local state: each chunk row gets the fresh `documentID` and
the next chunk id.  `fail` is the fault oracle (op counter `op`); a
failing insert aborts with the Go error message. -/
def insertChunkRows (documentID : Nat) (fail : Nat → Bool) :
    List Chunk → DBState → Nat → Except String DBState
  | [], st, _ => .ok st
  | ch :: rest, st, op =>
    if fail op then .error "failed to insert chunk"
    else
      insertChunkRows documentID fail rest
        { st with
          chunks := st.chunks ++
            [⟨st.nextChunkId, documentID, ch.ChunkIndex, ch.Content, ch.StartOffset,
              ch.EndOffset, ch.Embedding⟩],
          nextChunkId := st.nextChunkId + 1 }
        (op + 1)

/-- `IndexDocument`: inside one transaction, delete any existing document
with `source`, compute `contentSize` as the sum of Go `len` of the chunk
contents, insert the document row, insert every chunk row, then commit.
`fail` injects a failure at any of the fallible steps (begin = 0,
delete = 1, document insert = 2, prepare = 3, chunk inserts = 4…,
commit last); any failure rolls the transaction back, so the function
returns the original state together with the error. -/
def IndexDocument (st : DBState) (source sourceType title : String) (chunks : List Chunk)
    (fail : Nat → Bool) : DBState × Option String :=
  if fail 0 then (st, some "failed to begin transaction")
  else if fail 1 then (st, some "failed to delete existing document")
  else
    let tx1 := execDeleteDocuments connForeignKeysEnabled st source
    let contentSize := (chunks.map (fun ch => goLen ch.Content)).sum
    if fail 2 then (st, some "failed to insert document")
    else
      let documentID := tx1.nextDocId
      let tx2 : DBState :=
        { tx1 with
          documents := tx1.documents ++
            [⟨documentID, source, sourceType, contentSize, chunks.length, title⟩],
          nextDocId := documentID + 1 }
      if fail 3 then (st, some "failed to prepare chunk insert")
      else
        match insertChunkRows documentID fail chunks tx2 4 with
        | .error e => (st, some e)
        | .ok tx3 =>
          if fail (4 + chunks.length) then (st, some "failed to commit transaction")
          else (tx3, none)

/-- The chunk rows that the insert loop of `IndexDocument` produces for
input `chunks`: consecutive fresh ids starting at the second argument,
all owned by `documentID`. -/
def chunkRowsFrom (documentID : Nat) : List Chunk → Nat → List ChunkRow
  | [], _ => []
  | ch :: rest, cid =>
    ⟨cid, documentID, ch.ChunkIndex, ch.Content, ch.StartOffset, ch.EndOffset, ch.Embedding⟩ ::
      chunkRowsFrom documentID rest (cid + 1)

/-- `DeleteDocument`: run `DELETE FROM documents WHERE source = ?` and
fail with "document not found" when no row was affected. -/
def DeleteDocument (st : DBState) (source : String) : DBState × Option String :=
  let st' := execDeleteDocuments connForeignKeysEnabled st source
  let rowsAffected := (st.documents.filter (fun d => d.source == source)).length
  if rowsAffected == 0 then (st', some ("document not found: " ++ source))
  else (st', none)

/-- A `SearchResult` row: content, source, chunk index and score
(`1 - vec_distance_cosine`), the score modelled as a rational. -/
structure SearchResult where
  Content : String
  Source : String
  ChunkIndex : Nat
  Score : ℚ
deriving DecidableEq

/-- The rows produced by the search query's FROM/JOIN/WHERE part:
every chunk row joined to the document rows with matching id, restricted
to `d.source = sourceFilter` when the filter is nonempty, with
score `1 - vec_distance_cosine(c.embedding, query)` (`dist` is the
store's cosine-distance function, kept abstract). -/
def searchCandidates (st : DBState) (dist : Emb → Emb → ℚ) (queryEmbedding : Emb)
    (sourceFilter : String) : List SearchResult :=
  st.chunks.flatMap (fun ch =>
    (st.documents.filter
        (fun d => ch.documentId == d.id && (sourceFilter == "" || d.source == sourceFilter))).map
      (fun d => ⟨ch.content, d.source, ch.chunkIndex, 1 - dist ch.embedding queryEmbedding⟩))

/-- Descending order on scores (`ORDER BY score DESC`). -/
def scoreGe (a b : SearchResult) : Prop := b.Score ≤ a.Score

instance : DecidableRel scoreGe := fun a b => inferInstanceAs (Decidable (b.Score ≤ a.Score))

instance : IsTotal SearchResult scoreGe := ⟨fun a b => le_total b.Score a.Score⟩

instance : IsTrans SearchResult scoreGe := ⟨fun _ _ _ h1 h2 => le_trans h2 h1⟩

/-- `Search`: reject a query vector of the wrong dimension; otherwise
run the SQL query (`ORDER BY score DESC LIMIT topK`) and then drop, on
the Go side, every scanned row with score below `minScore`. -/
def Search (st : DBState) (dist : Emb → Emb → ℚ) (queryEmbedding : Emb) (topK : Nat)
    (minScore : ℚ) (sourceFilter : String) : Except String (List SearchResult) :=
  if queryEmbedding.length ≠ embeddingDimension then
    .error "invalid query embedding dimension"
  else
    let ranked :=
      (List.insertionSort scoreGe (searchCandidates st dist queryEmbedding sourceFilter)).take topK
    .ok (ranked.filter (fun r => minScore ≤ r.Score))

end storage

/-! ## Embedding gateway (embeddings client) -/

namespace embeddings

def maxBatchSize : Nat := 100

def embeddingDimension : Nat := 1536

/-- Result of the reassembly loop over the provider's response items:
either the filled slot array, a returned error, or a Go runtime panic
(out-of-bounds write). -/
inductive WriteRes where
  | done : List (Option Emb) → WriteRes
  | fail : String → WriteRes
  | crash : Int → WriteRes
deriving DecidableEq

/-- The loop `for _, item := range embResp.Data`: reject `item.Index >=
len(embeddings)`, reject a vector whose length is not the embedding
dimension, then write the vector at position `item.Index` — a write at
a negative index is a Go runtime panic (index out of range), modelled
as `crash`. -/
def writeItems (n : Nat) (slots : List (Option Emb)) : List (Int × Emb) → WriteRes
  | [] => .done slots
  | (idx, emb) :: rest =>
    if (n : Int) ≤ idx then .fail "invalid embedding index"
    else if emb.length ≠ embeddingDimension then .fail "unexpected embedding dimension"
    else if idx < 0 then .crash idx
    else writeItems n (slots.set idx.toNat (some emb)) rest

/-- The verification loop `for i, emb := range embeddings { if emb == nil … }`:
index of the first unfilled slot. -/
def firstNilIndex : List (Option Emb) → Nat → Option Nat
  | [], _ => none
  | none :: _, i => some i
  | some _ :: rest, i => firstNilIndex rest (i + 1)

/-- Outcome of an embedding call: the vectors, a returned error, or a
runtime panic. -/
inductive BatchOutcome where
  | ok : List Emb → BatchOutcome
  | err : String → BatchOutcome
  | crash : Int → BatchOutcome
deriving DecidableEq

/-- `embedBatch`, from the point where the provider's response has been
parsed into `items` (each an `(index, embedding)` pair): allocate
`len(texts)` empty slots, replay the response items into them, verify
that no slot is missing, and return the assembled vectors. -/
def embedBatch (texts : List String) (items : List (Int × Emb)) : BatchOutcome :=
  match writeItems texts.length (List.replicate texts.length none) items with
  | .crash i => .crash i
  | .fail e => .err e
  | .done slots =>
    match firstNilIndex slots 0 with
    | some i => .err ("missing embedding for index " ++ toString i)
    | none => .ok (slots.filterMap id)

/-- The batching loop of `Embed`: `for i := 0; i < len(texts); i += maxBatchSize`
submits `texts[i:i+100]`, so the batches are the successive 100-element
groups of the input. -/
def batchSplit (l : List String) : List (List String) :=
  if h : l = [] then []
  else l.take maxBatchSize :: batchSplit (l.drop maxBatchSize)
termination_by l.length
decreasing_by
  simp only [List.length_drop, maxBatchSize]
  have : l.length ≠ 0 := fun hl => h (List.length_eq_zero.mp hl)
  omega

/-- The faithful provider response for a batch `b` relative to a
ground-truth embedding function `f`: every input position tagged with
its index, as the provider contract requires (a real provider may
return these items in any order). -/
def taggedOf (f : String → Emb) (b : List String) : List (Int × Emb) :=
  ((b.map f).enum).map (fun p => ((p.1 : Int), p.2))

/-- Submit the batches in order, concatenating the per-batch vectors and
stopping at the first failure.  `provider` maps one batch to its parsed
response items (or a transport/provider error). -/
def embedBatches (provider : List String → Except String (List (Int × Emb))) :
    List (List String) → BatchOutcome
  | [] => .ok []
  | b :: rest =>
    match provider b with
    | .error e => .err e
    | .ok items =>
      match embedBatch b items with
      | .ok vs =>
        match embedBatches provider rest with
        | .ok vs' => .ok (vs ++ vs')
        | other => other
      | other => other

/-- `Embed`: empty input returns the empty vector sequence immediately
(before any provider interaction); otherwise process the batches. -/
def Embed (provider : List String → Except String (List (Int × Emb)))
    (texts : List String) : BatchOutcome :=
  if texts = [] then .ok []
  else embedBatches provider (batchSplit texts)

end embeddings

/-! ## Orchestrator service (src/internal/search/search.go) -/

namespace search

/-- `DeleteResponse` as returned to the tool layer. -/
structure DeleteResponse where
  Source : String
  Deleted : Bool
  Message : String
deriving DecidableEq

/-- `Service.Delete`: call the store's `DeleteDocument`; a store failure
is captured into a `deleted=false` response (with the error in the
message) instead of being propagated; success yields `deleted=true`.
The returned state is the store state after the call. -/
def Delete (st : storage.DBState) (source : String) : DeleteResponse × storage.DBState :=
  match storage.DeleteDocument st source with
  | (st', none) =>
    (⟨source, true, "Successfully deleted " ++ source⟩, st')
  | (st', some e) =>
    (⟨source, false, "Failed to delete: " ++ e⟩, st')

end search

/-! ## Concrete fixtures used by witnesses and counterexamples -/

/-- A stored document used in concrete runs. -/
def exDocA : storage.DocRow := ⟨1, "doc-a", "file", 3, 1, ""⟩

/-- A stored chunk row owned by `exDocA`. -/
def exChunkRowA : storage.ChunkRow := ⟨7, 1, 0, "abc", 0, 3, []⟩

/-- A store holding one document with one chunk. -/
def exStA : storage.DBState := ⟨[exDocA], [exChunkRowA], 2, 8⟩

/-- A fresh input chunk with an ASCII content and a full-size vector. -/
def exNewChunk : storage.Chunk := ⟨0, "xy", 0, 2, List.replicate 1536 ⟨0⟩⟩

/-- An input chunk whose content is one CJK code point (3 UTF-8 bytes). -/
def exCjkChunk : storage.Chunk := ⟨0, "世", 0, 1, List.replicate 1536 ⟨0⟩⟩

/-- A stored chunk row with a non-trivial embedding, owned by `exDocA`. -/
def exChunkRowB : storage.ChunkRow := ⟨1, 1, 0, "abc", 0, 3, [⟨5⟩]⟩

/-- A store with one document/one chunk for search runs. -/
def exStB : storage.DBState := ⟨[exDocA], [exChunkRowB], 2, 2⟩

/-- A query embedding of the correct dimension. -/
def exQuery : Emb := List.replicate 1536 ⟨0⟩

/-! ## Theorems -/

/-! ### C4: termination of `ChunkText` -/

/-- One unfolding of the chunking loop on the diverging input: from
`position = 1` the word boundary is found at index 3 (the space at
index 2), and the next position is `3 - 2 = 1` again. -/
theorem chunkLoop_c4_step (fuel chunkIndex : Nat) (acc : List chunker.Chunk) :
    chunker.chunkLoop ⟨5, 2⟩ "ab cdefghijklmnop".data 17 (fuel + 1) 1 chunkIndex acc =
      chunker.chunkLoop ⟨5, 2⟩ "ab cdefghijklmnop".data 17 fuel 1 (chunkIndex + 1)
        (acc ++ [⟨"b ", chunkIndex, 1, 3⟩]) := rfl

/-- The chunking loop never leaves `position = 1` on the diverging
input, for any fuel. -/
theorem chunkLoop_c4_stuck :
    ∀ (fuel chunkIndex : Nat) (acc : List chunker.Chunk),
      chunker.chunkLoop ⟨5, 2⟩ "ab cdefghijklmnop".data 17 fuel 1 chunkIndex acc = none := by
  intro fuel
  induction fuel with
  | zero => intro chunkIndex acc; rfl
  | succ n ih =>
    intro chunkIndex acc
    rw [chunkLoop_c4_step]
    exact ih _ _

/-- C4 (code bug): the claim states that `ChunkText` terminates for
every text and every post-constructor configuration, but with
`NewChunker 5 2` (a configuration the constructor accepts unchanged)
and the text `"ab cdefghijklmnop"` the loop revisits `position = 1`
forever: for every fuel value the loop fails to finish. -/
theorem C4_ChunkText_diverges :
    chunker.NewChunker 5 2 = ⟨5, 2⟩ ∧
    ∀ fuel, chunker.ChunkText ⟨5, 2⟩ fuel "ab cdefghijklmnop" = none := by
  refine ⟨by decide, fun fuel => ?_⟩
  cases fuel with
  | zero => rfl
  | succ n =>
    have h1 : chunker.ChunkText ⟨5, 2⟩ (n + 1) "ab cdefghijklmnop" =
        chunker.chunkLoop ⟨5, 2⟩ "ab cdefghijklmnop".data 17 n 1 1 [⟨"ab ", 0, 0, 3⟩] := rfl
    rw [h1]
    exact chunkLoop_c4_stuck n 1 _

/-! ### C5: offset/index invariants of the produced chunks -/

namespace chunker

/-- The backward whitespace scan only returns indices in the scanned
window `[scanStart, scanStart + n)`. -/
theorem scanBackWs_some_bounds (runes : List Char) (scanStart : Nat) :
    ∀ n i, scanBackWs runes scanStart n = some i → scanStart ≤ i ∧ i < scanStart + n := by
  intro n
  induction n with
  | zero => intro i h; simp [scanBackWs] at h
  | succ m ih =>
    intro i h
    simp only [scanBackWs] at h
    split at h
    · cases h; omega
    · have := ih i h
      omega

/-- The forward whitespace skip never moves backward and never crosses
`endPos`. -/
theorem skipWs_bounds (runes : List Char) (endPos : Nat) :
    ∀ fuel splitPos, splitPos ≤ endPos →
      splitPos ≤ skipWs runes endPos fuel splitPos ∧ skipWs runes endPos fuel splitPos ≤ endPos := by
  intro fuel
  induction fuel with
  | zero => intro sp h; exact ⟨Nat.le_refl _, h⟩
  | succ m ih =>
    intro sp h
    simp only [skipWs]
    split
    · rename_i hcond
      simp only [Bool.and_eq_true, decide_eq_true_eq] at hcond
      have hrec := ih (sp + 1) (by omega)
      exact ⟨by omega, hrec.2⟩
    · exact ⟨Nat.le_refl _, h⟩

/-- The word-boundary cut lies strictly after `startPos` and at or
before `endPos`. -/
theorem findWordBoundary_bounds (c : Chunker) (runes : List Char) (startPos endPos : Nat)
    (h : startPos < endPos) :
    startPos < findWordBoundary c runes startPos endPos ∧
      findWordBoundary c runes startPos endPos ≤ endPos := by
  have hss_ge : startPos ≤ max (endPos - min 100 c.chunkSize) startPos := le_max_right _ _
  have hss_le : max (endPos - min 100 c.chunkSize) startPos ≤ endPos :=
    max_le (Nat.sub_le _ _) (Nat.le_of_lt h)
  simp only [findWordBoundary]
  split
  · rename_i lw hsb
    have hb := scanBackWs_some_bounds runes _ _ _ hsb
    have hlw : lw < endPos := by omega
    have hsk := skipWs_bounds runes endPos (endPos - (lw + 1)) (lw + 1) (by omega)
    constructor
    · omega
    · exact hsk.2
  · exact ⟨h, Nat.le_refl _⟩

/-- Shape of one loop iteration: the emitted chunk starts at `position`,
carries `chunkIndex`, ends strictly after `position` and at or before
`totalLen`; the loop breaks exactly when the chunk ends at `totalLen`,
and otherwise continues from `EndOffset - overlap`. -/
theorem chunkStep_spec (c : Chunker) (runes : List Char) (totalLen position chunkIndex : Nat)
    (hcs : 1 ≤ c.chunkSize) (hpos : position < totalLen) :
    (chunkStep c runes totalLen position chunkIndex).1.Index = chunkIndex ∧
    (chunkStep c runes totalLen position chunkIndex).1.StartOffset = position ∧
    position < (chunkStep c runes totalLen position chunkIndex).1.EndOffset ∧
    (chunkStep c runes totalLen position chunkIndex).1.EndOffset ≤ totalLen ∧
    ((chunkStep c runes totalLen position chunkIndex).2 = none →
      (chunkStep c runes totalLen position chunkIndex).1.EndOffset = totalLen) ∧
    (∀ p, (chunkStep c runes totalLen position chunkIndex).2 = some p →
      p = (chunkStep c runes totalLen position chunkIndex).1.EndOffset - c.overlap ∧
      (chunkStep c runes totalLen position chunkIndex).1.EndOffset < totalLen) := by
  have hend1 : position < min (position + c.chunkSize) totalLen := lt_min (by omega) hpos
  have hend2 : min (position + c.chunkSize) totalLen ≤ totalLen := min_le_right _ _
  simp only [chunkStep]
  set ae := (if min (position + c.chunkSize) totalLen < totalLen then
      findWordBoundary c runes position (min (position + c.chunkSize) totalLen)
    else min (position + c.chunkSize) totalLen) with hae_def
  have hae : position < ae ∧ ae ≤ totalLen := by
    rw [hae_def]
    split
    · have hb := findWordBoundary_bounds c runes position _ hend1
      exact ⟨hb.1, le_trans hb.2 hend2⟩
    · exact ⟨hend1, hend2⟩
  split
  · rename_i hbreak
    exact ⟨rfl, rfl, hae.1, hae.2, fun _ => le_antisymm hae.2 hbreak,
      fun p hp => Option.noConfusion hp⟩
  · rename_i hcont
    refine ⟨rfl, rfl, hae.1, hae.2, fun hc => Option.noConfusion hc, fun p hp => ?_⟩
    exact ⟨(Option.some.inj hp).symm, lt_of_not_ge hcont⟩

/-- Invariant of the chunking loop: a completed run starting from a
well-formed accumulator yields chunks with contiguous indices, positive
extents, start 0, final end `totalLen`, and consecutive overlap when
`overlap > 0`. -/
theorem chunkLoop_spec (c : Chunker) (runes : List Char) (totalLen : Nat) (hcs : 1 ≤ c.chunkSize) :
    ∀ fuel position chunkIndex acc chunks,
      chunkLoop c runes totalLen fuel position chunkIndex acc = some chunks →
      position < totalLen →
      acc.map Chunk.Index = List.range chunkIndex →
      (∀ ch ∈ acc, ch.StartOffset < ch.EndOffset) →
      (∀ ch, acc.head? = some ch → ch.StartOffset = 0) →
      (acc = [] → position = 0) →
      (∀ la, acc.getLast? = some la → 0 < c.overlap → position < la.EndOffset) →
      (0 < c.overlap → List.Chain' (fun a b => b.StartOffset < a.EndOffset) acc) →
      (chunks.map Chunk.Index = List.range chunks.length ∧
       (∀ ch ∈ chunks, ch.StartOffset < ch.EndOffset) ∧
       (∀ ch, chunks.head? = some ch → ch.StartOffset = 0) ∧
       (∀ ch, chunks.getLast? = some ch → ch.EndOffset = totalLen) ∧
       (0 < c.overlap → List.Chain' (fun a b => b.StartOffset < a.EndOffset) chunks)) := by
  intro fuel
  induction fuel with
  | zero =>
    intro position chunkIndex acc chunks h
    simp [chunkLoop] at h
  | succ n ih =>
    intro position chunkIndex acc chunks h hpos hidx hlt hhead hnil hlast hchain
    simp only [chunkLoop] at h
    rw [if_pos hpos] at h
    rcases hstep : chunkStep c runes totalLen position chunkIndex with ⟨ch, cont⟩
    have hspec := chunkStep_spec c runes totalLen position chunkIndex hcs hpos
    rw [hstep] at h hspec
    dsimp only at hspec
    obtain ⟨hsIdx, hsStart, hsLt, hsLe, hsNone, hsSome⟩ := hspec
    have hacc_len : acc.length = chunkIndex := by
      have := congrArg List.length hidx
      simpa using this
    have hidx' : (acc ++ [ch]).map Chunk.Index = List.range (chunkIndex + 1) := by
      rw [List.map_append, hidx, List.range_succ, List.map_singleton, hsIdx]
    have hlen' : (acc ++ [ch]).length = chunkIndex + 1 := by
      simp [hacc_len]
    have hlt' : ∀ x ∈ acc ++ [ch], x.StartOffset < x.EndOffset := by
      intro x hx
      rcases List.mem_append.mp hx with hx | hx
      · exact hlt x hx
      · rcases List.mem_singleton.mp hx with rfl
        rw [hsStart]
        exact hsLt
    have hhead' : ∀ x, (acc ++ [ch]).head? = some x → x.StartOffset = 0 := by
      intro x hx
      cases acc with
      | nil =>
        simp at hx
        subst hx
        rw [hsStart, hnil rfl]
      | cons a t =>
        rw [List.head?_append_of_ne_nil _ (by simp)] at hx
        exact hhead x hx
    have hchain' : 0 < c.overlap →
        List.Chain' (fun a b => b.StartOffset < a.EndOffset) (acc ++ [ch]) := by
      intro hov
      refine List.chain'_append.mpr ⟨hchain hov, List.chain'_singleton ch, ?_⟩
      intro x hx y hy
      simp only [List.head?_cons, Option.mem_def, Option.some.injEq] at hy
      subst hy
      rw [hsStart]
      exact hlast x hx hov
    cases cont with
    | none =>
      simp only [Option.some.injEq] at h
      subst h
      refine ⟨by rw [hidx', hlen'], hlt', hhead', ?_, hchain'⟩
      intro x hx
      rw [List.getLast?_concat] at hx
      cases hx
      exact hsNone rfl
    | some nextPos =>
      obtain ⟨hnp, hlt_total⟩ := hsSome nextPos rfl
      refine ih nextPos (chunkIndex + 1) (acc ++ [ch]) chunks h ?_ hidx' hlt' hhead' ?_ ?_ hchain'
      · omega
      · intro habs
        simp at habs
      · intro la hla hov
        rw [List.getLast?_concat] at hla
        cases hla
        omega

end chunker

/-- C5: for every chunker configuration with positive chunk size, every
non-empty text and every completed run of `ChunkText`, the chunk index
sequence is exactly `0..n-1`, every chunk has `StartOffset < EndOffset`,
the first chunk starts at 0, the last chunk ends at the code-point
length of the text, and consecutive chunks overlap when `overlap > 0`. -/
theorem C5_ChunkText_offsets (c : chunker.Chunker) (text : String) (fuel : Nat)
    (chunks : List chunker.Chunk) (hcs : 1 ≤ c.chunkSize) (hne : text ≠ "")
    (h : chunker.ChunkText c fuel text = some chunks) :
    chunks.map chunker.Chunk.Index = List.range chunks.length ∧
    (∀ ch ∈ chunks, ch.StartOffset < ch.EndOffset) ∧
    (∀ ch, chunks.head? = some ch → ch.StartOffset = 0) ∧
    (∀ ch, chunks.getLast? = some ch → ch.EndOffset = text.data.length) ∧
    (0 < c.overlap → List.Chain' (fun a b => b.StartOffset < a.EndOffset) chunks) := by
  have hdata : text.data ≠ [] := by
    intro hd
    apply hne
    cases text
    simp at hd
    simp [hd]
  have hlen : 0 < text.data.length := List.length_pos.mpr hdata
  simp only [chunker.ChunkText] at h
  rw [if_neg hne] at h
  split at h
  · rename_i hsmall
    simp only [Option.some.injEq] at h
    subst h
    refine ⟨by simp [List.range_succ], ?_, ?_, ?_, ?_⟩
    · intro ch hch
      rcases List.mem_singleton.mp hch with rfl
      exact hlen
    · intro ch hch
      simp at hch
      subst hch
      rfl
    · intro ch hch
      simp at hch
      subst hch
      rfl
    · intro _
      exact List.chain'_singleton _
  · rename_i hbig
    exact chunker.chunkLoop_spec c text.data text.data.length hcs fuel 0 0 [] chunks h
      (by omega) (by simp) (by simp) (by simp) (fun _ => rfl) (by simp) (fun _ => List.chain'_nil)

/-- Witness for C5: the concrete run with `chunkSize = 10`, `overlap = 3`
on `"aaaa bbbb cccc dddd"`. -/
theorem C5_ChunkText_offsets_witness :
    (1 ≤ (⟨10, 3⟩ : chunker.Chunker).chunkSize) ∧ ("aaaa bbbb cccc dddd" ≠ "") ∧
    (([⟨"aaaa bbbb ", 0, 0, 10⟩, ⟨"bb cccc ", 1, 7, 15⟩, ⟨"cc dddd", 2, 12, 19⟩] :
        List chunker.Chunk).map chunker.Chunk.Index = List.range 3 ∧
      True) := by
  have h := C5_ChunkText_offsets ⟨10, 3⟩ "aaaa bbbb cccc dddd" 10
    [⟨"aaaa bbbb ", 0, 0, 10⟩, ⟨"bb cccc ", 1, 7, 15⟩, ⟨"cc dddd", 2, 12, 19⟩]
    (by decide) (by decide) (by decide)
  exact ⟨by decide, by decide, by simpa using h.1, trivial⟩

/-! ### C1/C6: IndexDocument -/

namespace storage

/-- Success shape of the chunk-insert loop: the documents and the
document counter are untouched, and exactly the rows `chunkRowsFrom`
describes are appended. -/
theorem insertChunkRows_ok (documentID : Nat) (fail : Nat → Bool) :
    ∀ (chunks : List Chunk) (st st' : DBState) (op : Nat),
      insertChunkRows documentID fail chunks st op = .ok st' →
      st'.documents = st.documents ∧ st'.nextDocId = st.nextDocId ∧
      st'.chunks = st.chunks ++ chunkRowsFrom documentID chunks st.nextChunkId ∧
      st'.nextChunkId = st.nextChunkId + chunks.length := by
  intro chunks
  induction chunks with
  | nil =>
    intro st st' op h
    simp only [insertChunkRows] at h
    cases h
    simp [chunkRowsFrom]
  | cons ch rest ih =>
    intro st st' op h
    simp only [insertChunkRows] at h
    split at h
    · cases h
    · have hr := ih _ st' (op + 1) h
      refine ⟨hr.1, hr.2.1, ?_, ?_⟩
      · rw [hr.2.2.1]
        simp [chunkRowsFrom, List.append_assoc]
      · rw [hr.2.2.2]
        simp
        omega

/-- Success shape of `IndexDocument`: the committed state has the rows
with the given `source` removed from `documents`, the new document row
(with byte-summed content size) appended, and exactly the new chunk
rows appended to `chunks`. -/
theorem IndexDocument_ok_shape (st : DBState) (source sourceType title : String)
    (chunks : List Chunk) (fail : Nat → Bool) (st' : DBState)
    (h : IndexDocument st source sourceType title chunks fail = (st', none)) :
    st'.documents =
      st.documents.filter (fun d => !(d.source == source)) ++
        [⟨st.nextDocId, source, sourceType, (chunks.map (fun ch => goLen ch.Content)).sum,
          chunks.length, title⟩] ∧
    st'.chunks = st.chunks ++ chunkRowsFrom st.nextDocId chunks st.nextChunkId := by
  simp only [IndexDocument] at h
  split at h
  · exact absurd (congrArg Prod.snd h) (by simp)
  · split at h
    · exact absurd (congrArg Prod.snd h) (by simp)
    · split at h
      · exact absurd (congrArg Prod.snd h) (by simp)
      · split at h
        · exact absurd (congrArg Prod.snd h) (by simp)
        · rename_i h0 h1 h2 h3
          split at h
          · exact absurd (congrArg Prod.snd h) (by simp)
          · rename_i tx3 hins
            split at h
            · exact absurd (congrArg Prod.snd h) (by simp)
            · have hpair := Prod.mk.injEq .. ▸ h
              have hst : tx3 = st' := congrArg Prod.fst h
              subst hst
              have hr := insertChunkRows_ok _ fail chunks _ _ _ hins
              constructor
              · rw [hr.1]
                simp [execDeleteDocuments, connForeignKeysEnabled]
              · rw [hr.2.2.1]
                simp [execDeleteDocuments, connForeignKeysEnabled]

/-- Failure shape of `IndexDocument`: every error leaves the original
state in place (the transaction is rolled back). -/
theorem IndexDocument_err_shape (st : DBState) (source sourceType title : String)
    (chunks : List Chunk) (fail : Nat → Bool) (st' : DBState) (e : String)
    (h : IndexDocument st source sourceType title chunks fail = (st', some e)) :
    st' = st := by
  simp only [IndexDocument] at h
  split at h
  · exact (congrArg Prod.fst h).symm
  · split at h
    · exact (congrArg Prod.fst h).symm
    · split at h
      · exact (congrArg Prod.fst h).symm
      · split at h
        · exact (congrArg Prod.fst h).symm
        · split at h
          · exact (congrArg Prod.fst h).symm
          · split at h
            · exact (congrArg Prod.fst h).symm
            · exact absurd (congrArg Prod.snd h) (by simp)

end storage

/-- C1: `IndexDocument` is an atomic replace.  On success the committed
state is exactly the original state with any document row bearing the
given source deleted, the new document row inserted, and all of the new
chunk rows inserted; on any failure the stored state equals the state
before the call. -/
theorem C1_IndexDocument_atomic_replace (st : storage.DBState)
    (source sourceType title : String) (chunks : List storage.Chunk) (fail : Nat → Bool) :
    (∀ st', storage.IndexDocument st source sourceType title chunks fail = (st', none) →
      st'.documents =
        st.documents.filter (fun d => !(d.source == source)) ++
          [⟨st.nextDocId, source, sourceType,
            (chunks.map (fun ch => storage.goLen ch.Content)).sum, chunks.length, title⟩] ∧
      st'.chunks = st.chunks ++ storage.chunkRowsFrom st.nextDocId chunks st.nextChunkId) ∧
    (∀ st' e, storage.IndexDocument st source sourceType title chunks fail = (st', some e) →
      st' = st) :=
  ⟨fun st' h => storage.IndexDocument_ok_shape st source sourceType title chunks fail st' h,
   fun st' e h => storage.IndexDocument_err_shape st source sourceType title chunks fail st' e h⟩

/-- Witness for C1: a concrete successful reindex of `"doc-a"` replaces
the document row and appends the new chunk row, and a concrete failing
run (failure injected at the document insert) leaves the state intact. -/
theorem C1_IndexDocument_atomic_replace_witness :
    ((storage.IndexDocument exStA "doc-a" "file" "" [exNewChunk] (fun _ => false)).1.documents =
      exStA.documents.filter (fun d => !(d.source == "doc-a")) ++
        [⟨exStA.nextDocId, "doc-a", "file",
          ([exNewChunk].map (fun ch => storage.goLen ch.Content)).sum, 1, ""⟩] ∧
     (storage.IndexDocument exStA "doc-a" "file" "" [exNewChunk] (fun _ => false)).1.chunks =
      exStA.chunks ++ storage.chunkRowsFrom exStA.nextDocId [exNewChunk] exStA.nextChunkId) ∧
    (storage.IndexDocument exStA "doc-a" "file" "" [exNewChunk] (fun k => k == 2)).1 = exStA := by
  constructor
  · exact (C1_IndexDocument_atomic_replace exStA "doc-a" "file" "" [exNewChunk]
      (fun _ => false)).1 _ rfl
  · exact (C1_IndexDocument_atomic_replace exStA "doc-a" "file" "" [exNewChunk]
      (fun k => k == 2)).2 _ "failed to insert document" rfl

/-- C6 counterexample: with a single chunk whose content is `"世"`
(one code point, three UTF-8 bytes), the stored `content_size` is 3,
while the sum of the chunk content lengths in characters is 1. -/
theorem C6_contentSize_counterexample :
    (storage.IndexDocument ⟨[], [], 1, 1⟩ "s" "content" "" [exCjkChunk] (fun _ => false)).2 =
      none ∧
    (storage.IndexDocument ⟨[], [], 1, 1⟩ "s" "content" "" [exCjkChunk]
        (fun _ => false)).1.documents = [⟨1, "s", "content", 3, 1, ""⟩] ∧
    ([exCjkChunk].map (fun ch => ch.Content.length)).sum = 1 ∧ (3 : Nat) ≠ 1 :=
  ⟨rfl, rfl, by decide, by decide⟩

/-- C6 (amended): the stored `content_size` of the document written by a
successful `IndexDocument` equals the sum of its chunks' content lengths
in UTF-8 bytes (Go `len`), which coincides with the character count only
for ASCII content. -/
theorem C6_contentSize_utf8_bytes (st : storage.DBState) (source sourceType title : String)
    (chunks : List storage.Chunk) (fail : Nat → Bool) (st' : storage.DBState)
    (h : storage.IndexDocument st source sourceType title chunks fail = (st', none)) :
    ∃ d, st'.documents.getLast? = some d ∧ d.source = source ∧
      d.contentSize = (chunks.map (fun ch => storage.goLen ch.Content)).sum := by
  have hs := storage.IndexDocument_ok_shape st source sourceType title chunks fail st' h
  refine ⟨⟨st.nextDocId, source, sourceType,
    (chunks.map (fun ch => storage.goLen ch.Content)).sum, chunks.length, title⟩, ?_, rfl, rfl⟩
  rw [hs.1]
  exact List.getLast?_concat _

/-- Witness for C6's amended theorem at a concrete successful run. -/
theorem C6_contentSize_utf8_bytes_witness :
    ∃ d, (storage.IndexDocument exStA "doc-a" "file" "" [exNewChunk]
        (fun _ => false)).1.documents.getLast? = some d ∧ d.source = "doc-a" ∧
      d.contentSize = ([exNewChunk].map (fun ch => storage.goLen ch.Content)).sum :=
  C6_contentSize_utf8_bytes exStA "doc-a" "file" "" [exNewChunk] (fun _ => false) _ rfl

/-! ### C2: cascade of chunk deletion -/

/-- C2 (code bug): the schema declares `ON DELETE CASCADE`, but the
connection never enables SQLite foreign-key enforcement, so deleting a
document leaves its chunk rows behind.  Concretely: `DeleteDocument`
on `exStA` succeeds and removes the document row with id 1, yet the
chunk row owned by document 1 is still stored; the delete step of a
reindexing `IndexDocument` leaves the same orphan behind. -/
theorem C2_chunks_outlive_document :
    ((storage.DeleteDocument exStA "doc-a").2 = none ∧
     (storage.DeleteDocument exStA "doc-a").1.documents = [] ∧
     (storage.DeleteDocument exStA "doc-a").1.chunks = [exChunkRowA]) ∧
    ((storage.IndexDocument exStA "doc-a" "file" "" [exNewChunk] (fun _ => false)).2 = none ∧
     exChunkRowA ∈
       (storage.IndexDocument exStA "doc-a" "file" "" [exNewChunk] (fun _ => false)).1.chunks ∧
     ∀ d ∈ (storage.IndexDocument exStA "doc-a" "file" "" [exNewChunk]
         (fun _ => false)).1.documents, d.id ≠ exChunkRowA.documentId) := by
  refine ⟨⟨rfl, rfl, rfl⟩, rfl, ?_, ?_⟩
  · exact List.mem_cons_self _ _
  · intro d hd
    simp [storage.IndexDocument, storage.execDeleteDocuments, storage.connForeignKeysEnabled,
      storage.insertChunkRows, exStA, exDocA, exChunkRowA] at hd
    subst hd
    decide

/-! ### C8: delete returns a structured response -/

/-- C8: the orchestrator's `Delete` always returns a structured
response: `deleted=false` (with a nonempty message and the store left
unchanged) exactly when no document with the source exists, and
`deleted=true` with the document row removed otherwise. -/
theorem C8_Delete_structured_response (st : storage.DBState) (source : String) :
    ((search.Delete st source).1.Deleted = false ↔ ∀ d ∈ st.documents, d.source ≠ source) ∧
    ((search.Delete st source).1.Deleted = false →
      (search.Delete st source).2 = st ∧ (search.Delete st source).1.Message ≠ "") ∧
    ((search.Delete st source).1.Deleted = true →
      ∀ d ∈ (search.Delete st source).2.documents, d.source ≠ source) := by
  have hfilter :
      ((st.documents.filter (fun d => d.source == source)).length = 0 ↔
        ∀ d ∈ st.documents, d.source ≠ source) := by
    rw [List.length_eq_zero, List.filter_eq_nil_iff]
    constructor
    · intro h d hd
      have := h d hd
      simpa using this
    · intro h d hd
      simpa using h d hd
  by_cases hz : (st.documents.filter (fun d => d.source == source)).length = 0
  · have hdel : storage.DeleteDocument st source =
        (storage.execDeleteDocuments storage.connForeignKeysEnabled st source,
          some ("document not found: " ++ source)) := by
      simp only [storage.DeleteDocument]
      rw [if_pos (by simpa using hz)]
    have hst : storage.execDeleteDocuments storage.connForeignKeysEnabled st source = st := by
      have hall := hfilter.mp hz
      cases st with
      | mk docs chs nd nc =>
        simp only [storage.execDeleteDocuments, storage.connForeignKeysEnabled,
          if_neg (by simp : ¬(false = true))]
        refine congrArg (fun l => storage.DBState.mk l chs nd nc) ?_
        refine List.filter_eq_self.mpr ?_
        intro d hd
        simpa using hall d hd
    have hserv : search.Delete st source =
        (⟨source, false, "Failed to delete: " ++ ("document not found: " ++ source)⟩,
          storage.execDeleteDocuments storage.connForeignKeysEnabled st source) := by
      simp only [search.Delete]
      rw [hdel]
    rw [hserv]
    refine ⟨⟨fun _ => hfilter.mp hz, fun _ => rfl⟩, fun _ => ⟨hst, ?_⟩,
      fun habs => absurd habs (by simp)⟩
    intro hmsg
    have hmsg' : "Failed to delete: " ++ ("document not found: " ++ source) = "" := hmsg
    have hlen := congrArg String.length hmsg'
    rw [String.length_append, String.length_append] at hlen
    have ha : ("Failed to delete: ".length) = 18 := by decide
    have hb : ("".length) = 0 := by decide
    omega
  · have hdel : storage.DeleteDocument st source =
        (storage.execDeleteDocuments storage.connForeignKeysEnabled st source, none) := by
      simp only [storage.DeleteDocument]
      rw [if_neg (by simpa using hz)]
    have hserv : search.Delete st source =
        (⟨source, true, "Successfully deleted " ++ source⟩,
          storage.execDeleteDocuments storage.connForeignKeysEnabled st source) := by
      simp only [search.Delete]
      rw [hdel]
    rw [hserv]
    refine ⟨⟨fun habs => absurd habs (by simp), fun hall => absurd (hfilter.mpr hall) hz⟩,
      fun habs => absurd habs (by simp), fun _ d hd => ?_⟩
    have hd' : d ∈ st.documents.filter (fun x => !(x.source == source)) := hd
    have := List.of_mem_filter hd'
    simpa using this

/-! ### C9: safety of batch reassembly -/

namespace embeddings

/-- With only non-negative index tags, the reassembly loop either
returns an error or finishes with a slot list of unchanged length —
it never reaches the out-of-bounds write. -/
theorem writeItems_nonneg (n : Nat) :
    ∀ (items : List (Int × Emb)) (slots : List (Option Emb)),
      (∀ p ∈ items, 0 ≤ p.1) →
      (∃ e, writeItems n slots items = .fail e) ∨
      (∃ slots', writeItems n slots items = .done slots' ∧ slots'.length = slots.length) := by
  intro items
  induction items with
  | nil => intro slots _; exact .inr ⟨slots, rfl, rfl⟩
  | cons p rest ih =>
    intro slots h
    obtain ⟨idx, emb⟩ := p
    have h0 : (0 : Int) ≤ idx := h (idx, emb) (List.mem_cons_self _ _)
    simp only [writeItems]
    split
    · exact .inl ⟨_, rfl⟩
    · split
      · exact .inl ⟨_, rfl⟩
      · split
        · rename_i hneg
          exact absurd h0 (not_le.mpr hneg)
        · have hr := ih (slots.set idx.toNat (some emb))
            (fun q hq => h q (List.mem_cons_of_mem _ hq))
          rcases hr with ⟨e, he⟩ | ⟨s', hs', hl⟩
          · exact .inl ⟨e, he⟩
          · exact .inr ⟨s', hs', by rw [hl, List.length_set]⟩

/-- If the nil-check loop reports no missing slot, every slot is
filled. -/
theorem firstNilIndex_none_isSome :
    ∀ (slots : List (Option Emb)) (i : Nat), firstNilIndex slots i = none →
      ∀ x ∈ slots, x.isSome := by
  intro slots
  induction slots with
  | nil => intro i _ x hx; cases hx
  | cons a t ih =>
    intro i h x hx
    cases a with
    | none => simp [firstNilIndex] at h
    | some v =>
      rcases List.mem_cons.mp hx with rfl | hx'
      · rfl
      · exact ih (i + 1) (by simpa [firstNilIndex] using h) x hx'

/-- Extracting all slots of a fully filled list preserves the length. -/
theorem length_filterMap_id_isSome :
    ∀ (slots : List (Option Emb)), (∀ x ∈ slots, x.isSome) →
      (slots.filterMap id).length = slots.length := by
  intro slots
  induction slots with
  | nil => intro _; rfl
  | cons a t ih =>
    intro h
    cases a with
    | none => exact absurd (h none (List.mem_cons_self _ _)) (by simp)
    | some v =>
      simp only [List.filterMap_cons, id]
      rw [List.length_cons, ih (fun x hx => h x (List.mem_cons_of_mem _ hx))]
      exact (List.length_cons _ _).symm

end embeddings

/-- C9 counterexample: a provider response item with index tag `-1`
passes the `item.Index >= len(embeddings)` guard and reaches the array
write, which is an out-of-bounds access (a Go runtime panic), so the
function neither returns a complete sequence nor an error there. -/
theorem C9_embedBatch_negative_index_crash :
    embeddings.embedBatch ["a"] [(-1, exQuery)] = .crash (-1) := rfl

/-- C9 (amended): for every response whose index tags are all
non-negative, `embedBatch` returns either an error or a complete vector
sequence of the batch's length, and never performs an out-of-bounds
write; a negative index tag, however, reaches the out-of-bounds write. -/
theorem C9_embedBatch_nonneg_safe (texts : List String) (items : List (Int × Emb))
    (h : ∀ p ∈ items, 0 ≤ p.1) :
    (∃ e, embeddings.embedBatch texts items = .err e) ∨
    (∃ vs, embeddings.embedBatch texts items = .ok vs ∧ vs.length = texts.length) := by
  rcases embeddings.writeItems_nonneg texts.length items
      (List.replicate texts.length none) h with ⟨e, he⟩ | ⟨slots', hs', hl⟩
  · left
    exact ⟨e, by simp [embeddings.embedBatch, he]⟩
  · rw [List.length_replicate] at hl
    cases hfn : embeddings.firstNilIndex slots' 0 with
    | some i =>
      left
      exact ⟨"missing embedding for index " ++ toString i,
        by simp [embeddings.embedBatch, hs', hfn]⟩
    | none =>
      right
      refine ⟨slots'.filterMap id, by simp [embeddings.embedBatch, hs', hfn], ?_⟩
      rw [embeddings.length_filterMap_id_isSome slots'
        (embeddings.firstNilIndex_none_isSome slots' 0 hfn), hl]

/-- Witness for C9's amended theorem at a concrete in-range response. -/
theorem C9_embedBatch_nonneg_safe_witness :
    (∃ e, embeddings.embedBatch ["a"] [((0 : Int), exQuery)] = .err e) ∨
    (∃ vs, embeddings.embedBatch ["a"] [((0 : Int), exQuery)] = .ok vs ∧
      vs.length = (["a"] : List String).length) :=
  C9_embedBatch_nonneg_safe ["a"] [((0 : Int), exQuery)] (by decide)

/-! ### C7: Embed is order-preserving -/

namespace embeddings

/-- When every response item is in range and well-dimensioned, the
reassembly loop is a pure fold of slot writes. -/
theorem writeItems_all_valid (n : Nat) :
    ∀ (items : List (Int × Emb)) (slots : List (Option Emb)),
      (∀ p ∈ items, 0 ≤ p.1 ∧ p.1 < (n : Int) ∧ p.2.length = embeddingDimension) →
      writeItems n slots items =
        .done (items.foldl (fun s p => s.set p.1.toNat (some p.2)) slots) := by
  intro items
  induction items with
  | nil => intro slots _; rfl
  | cons p rest ih =>
    intro slots h
    obtain ⟨hp0, hpn, hpd⟩ := h p (List.mem_cons_self _ _)
    obtain ⟨idx, emb⟩ := p
    simp only [writeItems, List.foldl_cons]
    rw [if_neg (not_le.mpr hpn), if_neg (by simp [hpd]), if_neg (not_lt.mpr hp0)]
    exact ih _ (fun q hq => h q (List.mem_cons_of_mem _ hq))

/-- A fold of slot writes leaves the slot count unchanged. -/
theorem foldl_set_length :
    ∀ (l : List (Nat × Emb)) (slots : List (Option Emb)),
      (l.foldl (fun s p => s.set p.1 (some p.2)) slots).length = slots.length := by
  intro l
  induction l with
  | nil => intro slots; rfl
  | cons a t ih =>
    intro slots
    rw [List.foldl_cons, ih, List.length_set]

/-- Last-write-wins reading of a fold of slot writes: position `j` holds
the value of the last item tagged `j`, or the original slot content when
no item is tagged `j`. -/
theorem foldl_set_get? :
    ∀ (l : List (Nat × Emb)) (slots : List (Option Emb)) (j : Nat), j < slots.length →
      (l.foldl (fun s p => s.set p.1 (some p.2)) slots).get? j =
        ((l.reverse.find? (fun p => p.1 == j)).map (fun p => some p.2)).getD (slots.get? j) := by
  intro l
  induction l with
  | nil => intro slots j _; simp
  | cons a t ih =>
    intro slots j hj
    obtain ⟨i, e⟩ := a
    simp only [List.foldl_cons, List.reverse_cons]
    rw [ih (slots.set i (some e)) j (by simpa using hj), List.find?_append]
    cases hf : t.reverse.find? (fun p => p.1 == j) with
    | some q => simp
    | none =>
      by_cases hij : i = j
      · subst hij
        rw [List.find?_cons_of_pos _ (by simp)]
        simp only [Option.map_some, Option.getD_some, List.get?_eq_getElem?]
        rw [List.getElem?_set_self']
        simp [List.getElem?_eq_getElem hj]
      · rw [List.find?_cons_of_neg _ (by simp [hij])]
        simp only [Option.map_none, Option.getD_none, List.get?_eq_getElem?]
        rw [List.getElem?_set_ne hij]
        simp

/-- With pairwise-distinct keys, `find?` on a key returns the unique
entry bearing it. -/
theorem find?_eq_of_nodup_keys :
    ∀ (l : List (Nat × Emb)) (j : Nat) (v : Emb),
      (l.map Prod.fst).Nodup → (j, v) ∈ l →
      l.find? (fun p => p.1 == j) = some (j, v) := by
  intro l
  induction l with
  | nil => intro j v _ hm; cases hm
  | cons a t ih =>
    intro j v hn hm
    rw [List.map_cons] at hn
    rcases List.mem_cons.mp hm with rfl | hm'
    · exact List.find?_cons_of_pos _ (by simp)
    · have hj_in : j ∈ t.map Prod.fst := List.mem_map.mpr ⟨(j, v), hm', rfl⟩
      have ha : a.1 ≠ j := by
        intro he
        exact (List.nodup_cons.mp hn).1 (he ▸ hj_in)
      rw [List.find?_cons_of_neg _ (by simp [ha])]
      exact ih j v (List.nodup_cons.mp hn).2 hm'

/-- `firstNilIndex` finds nothing in a list of filled slots. -/
theorem firstNilIndex_map_some :
    ∀ (l : List Emb) (i : Nat), firstNilIndex (l.map some) i = none := by
  intro l
  induction l with
  | nil => intro i; rfl
  | cons a t ih => intro i; simpa [firstNilIndex] using ih (i + 1)

/-- Core of C7: a response that is any permutation of the correctly
tagged vectors reassembles to exactly the input-ordered vectors. -/
theorem embedBatch_perm (f : String → Emb)
    (hf : ∀ s, (f s).length = embeddingDimension) (b : List String)
    (items : List (Int × Emb)) (hperm : items.Perm (taggedOf f b)) :
    embedBatch b items = .ok (b.map f) := by
  have hvalid : ∀ p ∈ items,
      0 ≤ p.1 ∧ p.1 < (b.length : Int) ∧ p.2.length = embeddingDimension := by
    intro p hp
    have hp' : p ∈ taggedOf f b := hperm.mem_iff.mp hp
    obtain ⟨q, hq, rfl⟩ := List.mem_map.mp hp'
    obtain ⟨i, e⟩ := q
    have hq' : (b.map f).get? i = some e := List.mk_mem_enum_iff_get?.mp hq
    have hilen : i < (b.map f).length := by
      by_contra hge
      rw [List.get?_eq_none.mpr (le_of_not_lt hge)] at hq'
      cases hq'
    have hmem : e ∈ b.map f := List.get?_mem hq'
    obtain ⟨s, _, rfl⟩ := List.mem_map.mp hmem
    refine ⟨by simp, ?_, hf s⟩
    simpa using (by simpa using hilen : i < b.length)
  have hw := writeItems_all_valid b.length items (List.replicate b.length none) hvalid
  have hfold :
      items.foldl (fun s p => s.set p.1.toNat (some p.2)) (List.replicate b.length none) =
        (items.map (fun p => (p.1.toNat, p.2))).foldl (fun s p => s.set p.1 (some p.2))
          (List.replicate b.length none) := by
    rw [List.foldl_map]
  have htag_map : (taggedOf f b).map (fun p => (p.1.toNat, p.2)) = (b.map f).enum := by
    simp only [taggedOf, List.map_map]
    have : ((fun p => (p.1.toNat, p.2)) ∘ fun p : Nat × Emb => ((p.1 : Int), p.2)) =
        fun p : Nat × Emb => (p.1, p.2) := by
      funext p
      simp
    rw [this]
    simp
  have hnat_perm : (items.map (fun p => (p.1.toNat, p.2))).Perm ((b.map f).enum) := by
    have h1 := hperm.map (fun p => (p.1.toNat, p.2))
    rwa [htag_map] at h1
  have hkeys : (((items.map (fun p => (p.1.toNat, p.2))).map Prod.fst)).Nodup := by
    have he : ((b.map f).enum.map Prod.fst).Nodup := by
      rw [List.enum_map_fst]
      exact List.nodup_range _
    exact ((hnat_perm.map Prod.fst).symm).nodup he
  have hget : ∀ j (hj : j < (b.map f).length),
      ((items.map (fun p => (p.1.toNat, p.2))).foldl (fun s p => s.set p.1 (some p.2))
        (List.replicate b.length none)).get? j = some (some ((b.map f).get ⟨j, hj⟩)) := by
    intro j hj
    have hjlen : j < (List.replicate b.length (none : Option Emb)).length := by
      simpa using (by simpa using hj : j < b.length)
    rw [foldl_set_get? _ _ j hjlen]
    have hmem_enum : (j, (b.map f).get ⟨j, hj⟩) ∈ (b.map f).enum :=
      List.mk_mem_enum_iff_get?.mpr (List.get?_eq_get hj)
    have hmem_items : (j, (b.map f).get ⟨j, hj⟩) ∈ items.map (fun p => (p.1.toNat, p.2)) :=
      hnat_perm.mem_iff.mpr hmem_enum
    have hrev_keys : (((items.map (fun p => (p.1.toNat, p.2))).reverse.map Prod.fst)).Nodup := by
      rw [List.map_reverse]
      exact List.nodup_reverse.mpr hkeys
    rw [find?_eq_of_nodup_keys _ j _ hrev_keys (List.mem_reverse.mpr hmem_items)]
    rfl
  have hslots : (items.map (fun p => (p.1.toNat, p.2))).foldl (fun s p => s.set p.1 (some p.2))
      (List.replicate b.length none) = (b.map f).map some := by
    apply List.ext_get?
    intro j
    by_cases hj : j < (b.map f).length
    · rw [hget j hj, List.get?_map, List.get?_eq_get hj]
      rfl
    · have hlen1 : ((items.map (fun p => (p.1.toNat, p.2))).foldl
          (fun s p => s.set p.1 (some p.2)) (List.replicate b.length none)).length =
          b.length := by
        rw [foldl_set_length, List.length_replicate]
      rw [List.get?_eq_none.mpr, List.get?_eq_none.mpr]
      · simpa using le_of_not_lt hj
      · rw [hlen1]
        simpa using le_of_not_lt hj
  simp only [embedBatch]
  rw [hw, hfold, hslots]
  simp only [firstNilIndex_map_some]
  rw [List.filterMap_map]
  simp [List.filterMap_some]

/-- The per-batch successes concatenate in batch order. -/
theorem embedBatches_ok (provider : List String → Except String (List (Int × Emb)))
    (f : String → Emb) :
    ∀ (bs : List (List String)),
      (∀ b ∈ bs, ∃ items, provider b = .ok items ∧ embedBatch b items = .ok (b.map f)) →
      embedBatches provider bs = .ok ((bs.map (List.map f)).flatten) := by
  intro bs
  induction bs with
  | nil => intro _; rfl
  | cons b rest ih =>
    intro h
    obtain ⟨items, hp, hb⟩ := h b (List.mem_cons_self _ _)
    simp only [embedBatches, hp, hb, ih (fun x hx => h x (List.mem_cons_of_mem _ hx))]
    simp

/-- Concatenating the batches reproduces the input list. -/
theorem batchSplit_flatten : ∀ (l : List String), (batchSplit l).flatten = l := by
  have haux : ∀ (n : Nat) (l : List String), l.length ≤ n → (batchSplit l).flatten = l := by
    intro n
    induction n with
    | zero =>
      intro l hl
      have : l = [] := List.length_eq_zero.mp (Nat.le_zero.mp hl)
      subst this
      simp [batchSplit]
    | succ m ih =>
      intro l hl
      by_cases he : l = []
      · subst he; simp [batchSplit]
      · rw [batchSplit, dif_neg he]
        rw [List.flatten_cons]
        rw [ih (l.drop maxBatchSize) ?_]
        · exact List.take_append_drop _ l
        · have hlen : 0 < l.length := List.length_pos.mpr he
          simp only [List.length_drop, maxBatchSize]
          omega
  intro l
  exact haux l.length l (Nat.le_refl _)

end embeddings

/-- C7: `Embed` returns the empty sequence on empty input for every
provider (the provider is never consulted), and whenever every batch's
response is any permutation of the correctly index-tagged vectors of a
ground-truth embedding function `f` of the right dimension, the output
is exactly `texts.map f` — the i-th output vector embeds the i-th input
text. -/
theorem C7_Embed_order_preserving :
    (∀ provider, embeddings.Embed provider [] = .ok []) ∧
    (∀ (f : String → Emb) provider (texts : List String),
      (∀ s, (f s).length = embeddings.embeddingDimension) →
      (∀ b ∈ embeddings.batchSplit texts, ∃ items, provider b = Except.ok items ∧
        items.Perm (embeddings.taggedOf f b)) →
      embeddings.Embed provider texts = .ok (texts.map f)) := by
  constructor
  · intro provider
    rfl
  · intro f provider texts hf hresp
    by_cases he : texts = []
    · subst he
      rfl
    · simp only [embeddings.Embed]
      rw [if_neg he]
      have hb : ∀ b ∈ embeddings.batchSplit texts, ∃ items, provider b = .ok items ∧
          embeddings.embedBatch b items = .ok (b.map f) := by
        intro b hbm
        obtain ⟨items, hp, hperm⟩ := hresp b hbm
        exact ⟨items, hp, embeddings.embedBatch_perm f hf b items hperm⟩
      rw [embeddings.embedBatches_ok provider f _ hb]
      rw [← List.map_flatten, embeddings.batchSplit_flatten]

/-- Witness for C7: a provider that answers each batch with the
correctly tagged constant embedding, on a two-text input. -/
theorem C7_Embed_order_preserving_witness :
    embeddings.Embed
        (fun b => Except.ok (embeddings.taggedOf (fun _ => exQuery) b)) ["a", "b"] =
      .ok ((["a", "b"] : List String).map (fun _ => exQuery)) :=
  C7_Embed_order_preserving.2 (fun _ => exQuery)
    (fun b => Except.ok (embeddings.taggedOf (fun _ => exQuery) b)) ["a", "b"]
    (fun _ => by simp [exQuery, embeddings.embeddingDimension])
    (fun b _ => ⟨embeddings.taggedOf (fun _ => exQuery) b, rfl, List.Perm.refl _⟩)

/-! ### C3/C10: Search -/

namespace storage

/-- Extract the result list of a successful `Search`. -/
theorem Search_ok_eq (st : DBState) (dist : Emb → Emb → ℚ) (q : Emb) (topK : Nat)
    (minScore : ℚ) (filt : String) (res : List SearchResult)
    (h : Search st dist q topK minScore filt = .ok res) :
    res = ((List.insertionSort scoreGe (searchCandidates st dist q filt)).take topK).filter
      (fun r => minScore ≤ r.Score) := by
  simp only [Search] at h
  split at h
  · cases h
  · exact (Except.ok.inj h).symm

end storage

/-- C3: a successful `Search` result is exactly the score-descending
top-`topK` window of the (optionally source-filtered) candidate rows,
with rows below `minScore` dropped afterwards; hence at most `topK`
rows, sorted descending, all scores at least `minScore`, and every
returned row lies inside the top-`topK` window — a row ranked below the
K-th position is never returned, whatever its score. -/
theorem C3_Search_minScore_after_topK (st : storage.DBState) (dist : Emb → Emb → ℚ)
    (q : Emb) (topK : Nat) (minScore : ℚ) (filt : String)
    (res : List storage.SearchResult)
    (h : storage.Search st dist q topK minScore filt = .ok res) :
    res = ((List.insertionSort storage.scoreGe
        (storage.searchCandidates st dist q filt)).take topK).filter
        (fun r => minScore ≤ r.Score) ∧
    res.length ≤ topK ∧
    List.Sorted storage.scoreGe res ∧
    (∀ r ∈ res, minScore ≤ r.Score) ∧
    (∀ r ∈ res, r ∈ (List.insertionSort storage.scoreGe
        (storage.searchCandidates st dist q filt)).take topK) := by
  have hres := storage.Search_ok_eq st dist q topK minScore filt res h
  refine ⟨hres, ?_, ?_, ?_, ?_⟩
  · rw [hres]
    exact le_trans (List.length_filter_le _ _) (List.length_take_le _ _)
  · rw [hres]
    exact List.Pairwise.sublist ((List.filter_sublist _).trans (List.take_sublist _ _))
      (List.sorted_insertionSort storage.scoreGe _)
  · intro r hr
    rw [hres] at hr
    simpa using List.of_mem_filter hr
  · intro r hr
    rw [hres] at hr
    exact List.mem_of_mem_filter hr

/-- Witness for C3 at a concrete store with one chunk. -/
theorem C3_Search_minScore_after_topK_witness :
    ([(⟨"abc", "doc-a", 0, 1⟩ : storage.SearchResult)].length ≤ 5) ∧
    (∀ r ∈ [(⟨"abc", "doc-a", 0, (1 : ℚ)⟩ : storage.SearchResult)], (0 : ℚ) ≤ r.Score) := by
  have hok : storage.Search exStB (fun _ _ => 0) exQuery 5 0 "" = .ok [⟨"abc", "doc-a", 0, 1⟩] := by
    simp [storage.Search, storage.searchCandidates, storage.embeddingDimension, exStB,
      exQuery, exChunkRowB, exDocA, List.insertionSort, List.filter]
  have h := C3_Search_minScore_after_topK exStB (fun _ _ => 0) exQuery 5 0 ""
    [⟨"abc", "doc-a", 0, 1⟩] hok
  exact ⟨h.2.1, h.2.2.2.1⟩

/-- C10: every row a successful `Search` returns comes from a chunk row
joined to a document row that exists in the store and whose id the
chunk references — an orphaned chunk row (no matching document) is
never returned. -/
theorem C10_Search_joins_live_documents (st : storage.DBState) (dist : Emb → Emb → ℚ)
    (q : Emb) (topK : Nat) (minScore : ℚ) (filt : String)
    (res : List storage.SearchResult) (r : storage.SearchResult)
    (h : storage.Search st dist q topK minScore filt = .ok res) (hr : r ∈ res) :
    ∃ c ∈ st.chunks, ∃ d ∈ st.documents, c.documentId = d.id ∧
      r.Content = c.content ∧ r.Source = d.source ∧ r.ChunkIndex = c.chunkIndex ∧
      r.Score = 1 - dist c.embedding q := by
  have hres := storage.Search_ok_eq st dist q topK minScore filt res h
  rw [hres] at hr
  have hr1 : r ∈ (List.insertionSort storage.scoreGe
      (storage.searchCandidates st dist q filt)).take topK := List.mem_of_mem_filter hr
  have hr2 : r ∈ List.insertionSort storage.scoreGe
      (storage.searchCandidates st dist q filt) := List.mem_of_mem_take hr1
  have hr3 : r ∈ storage.searchCandidates st dist q filt :=
    (List.perm_insertionSort _ _).mem_iff.mp hr2
  obtain ⟨c, hc, hcr⟩ := List.exists_of_mem_flatMap hr3
  obtain ⟨d, hd, hdr⟩ := List.mem_map.mp hcr
  have hdmem : d ∈ st.documents := List.mem_of_mem_filter hd
  have hcond := List.of_mem_filter hd
  simp only [Bool.and_eq_true, beq_iff_eq] at hcond
  refine ⟨c, hc, d, hdmem, hcond.1, ?_, ?_, ?_, ?_⟩ <;> rw [← hdr]

/-- Witness for C10 at a concrete store with one chunk. -/
theorem C10_Search_joins_live_documents_witness :
    ∃ c ∈ exStB.chunks, ∃ d ∈ exStB.documents, c.documentId = d.id ∧
      (⟨"abc", "doc-a", 0, (1 : ℚ)⟩ : storage.SearchResult).Content = c.content ∧
      (⟨"abc", "doc-a", 0, (1 : ℚ)⟩ : storage.SearchResult).Source = d.source ∧
      (⟨"abc", "doc-a", 0, (1 : ℚ)⟩ : storage.SearchResult).ChunkIndex = c.chunkIndex ∧
      (⟨"abc", "doc-a", 0, (1 : ℚ)⟩ : storage.SearchResult).Score =
        1 - (fun _ _ => (0 : ℚ)) c.embedding exQuery := by
  have hok : storage.Search exStB (fun _ _ => 0) exQuery 5 0 "" = .ok [⟨"abc", "doc-a", 0, 1⟩] := by
    simp [storage.Search, storage.searchCandidates, storage.embeddingDimension, exStB,
      exQuery, exChunkRowB, exDocA, List.insertionSort, List.filter]
  exact C10_Search_joins_live_documents exStB (fun _ _ => 0) exQuery 5 0 ""
    [⟨"abc", "doc-a", 0, 1⟩] ⟨"abc", "doc-a", 0, 1⟩ hok (List.mem_singleton.mpr rfl)

/-! ### C8 witness -/

/-- Witness for C8: deleting a missing source yields `deleted=false`
with the store unchanged; deleting an existing source yields
`deleted=true`. -/
theorem C8_Delete_structured_response_witness :
    (search.Delete exStA "nope").1.Deleted = false ∧
    (search.Delete exStA "nope").2 = exStA ∧
    (search.Delete exStA "doc-a").1.Deleted = true := by
  have h1 := C8_Delete_structured_response exStA "nope"
  have hfa : ∀ d ∈ exStA.documents, d.source ≠ "nope" := by decide
  refine ⟨h1.1.mpr hfa, (h1.2.1 (h1.1.mpr hfa)).1, ?_⟩
  have h2 := C8_Delete_structured_response exStA "doc-a"
  have hex : ¬ ∀ d ∈ exStA.documents, d.source ≠ "doc-a" := by decide
  cases hb : (search.Delete exStA "doc-a").1.Deleted with
  | false => exact absurd (h2.1.mp hb) hex
  | true => rfl

end DocSearch
